import Mathlib

/-!
Verification development for the annotation-introspection engine of the
`typing_inspection` package (modules `introspection.py` and
`introspection/_parsing.py`).

The Python data is shallowly embedded:

* Python type expressions become the inductive `TypeExpr` (with `TypeArgs`
  as the embedded argument lists); each constructor corresponds to one
  classification the source's predicates (`typing_objects.is_*`,
  `get_origin`) can make of a runtime object.
* `Literal[...]` parameter lists become `LitArgs`; the concrete values that
  may appear in them become `LitValue`, and the runtime kind of a value
  (`type(value)` in Python) becomes `PyType`.
* Raised exceptions become `Except`-style error results.
* The two genuinely loop-shaped pieces of the source
  (`_unpack_annotated_inner`, which re-enters itself through a freshly
  computed parameterized alias value, and the `while True` loop of
  `inspect_annotation`) are embedded with an explicit fuel parameter;
  `FuelRes.fuelOut` marks fuel exhaustion, so divergence of the source is
  `∀ fuel, result = fuelOut` in the model.
-/

/-! ## Qualifiers and annotation sources (`introspection.py`) -/

/-- The `Qualifier` type alias of the source:
`Literal['required', 'not_required', 'read_only', 'class_var', 'final']`. -/
inductive Qualifier where
  | required
  | not_required
  | read_only
  | class_var
  | final
deriving DecidableEq, Repr

/-- The `AnnotationSource` enum of the source (members in source order). -/
inductive AnnotationSource where
  | ASSIGNMENT_OR_VARIABLE
  | CLASS
  | TYPED_DICT
  | NAMED_TUPLE
  | FUNCTION
  | ANY
  | BARE
deriving DecidableEq, Repr

/-- The `AnnotationSource.allowed_qualifiers` property: one arm per branch of
the source's `if`/`elif` chain (Python sets become lists here, read with set
semantics). The source ends in `assert_never(self)`: the function is total
with no default arm, which the Lean `match` mirrors by exhaustiveness. -/
def allowedQualifiers : AnnotationSource → List Qualifier
  | .ASSIGNMENT_OR_VARIABLE => [.final]
  | .CLASS => [.final, .class_var]
  | .TYPED_DICT => [.required, .not_required, .read_only]
  | .NAMED_TUPLE => []
  | .FUNCTION => []
  | .BARE => []
  | .ANY => [.required, .not_required, .read_only, .class_var, .final]

/-! ## Literal values (`get_literal_values`) -/

/-- The runtime kind of a literal value — `type(value)` in Python.
`typeMeta` is `type(NoneType)` (i.e. `type`), the kind paired with the
`NoneType` sentinel itself; `aliasMeta` is the `TypeAliasType` class, the
kind of an unexpanded alias object kept by the `lenient` fallback. -/
inductive PyType where
  | intT
  | strT
  | bytesT
  | boolT
  | noneT
  | enumT (enumId : Nat)
  | typeMeta
  | aliasMeta
deriving DecidableEq, Repr

/-- A concrete value appearing in a `Literal[...]` parameter list.
`enumV e n` is a member of the `IntEnum` numbered `e` whose integer value is
`n` (so it compares equal to the plain integer `n`, as in Python).
`noneV` is the value `None`; `noneTypeV` is the type-level sentinel
`NoneType`.  `aliasObj i` is a `TypeAliasType` object treated as an opaque
value (the `keep` mode and the `lenient` fallback yield these as-is). -/
inductive LitValue where
  | intV (n : Int)
  | strV (s : String)
  | bytesV (s : String)
  | boolV (b : Bool)
  | enumV (enumId : Nat) (val : Int)
  | noneV
  | noneTypeV
  | aliasObj (id : Nat)
deriving DecidableEq, Repr

/-- `type(value)` for each modelled value. -/
def pyType : LitValue → PyType
  | .intV _ => .intT
  | .strV _ => .strT
  | .bytesV _ => .bytesT
  | .boolV _ => .boolT
  | .enumV e _ => .enumT e
  | .noneV => .noneT
  | .noneTypeV => .typeMeta
  | .aliasObj _ => .aliasMeta

/-- The integer a value contributes to Python `==` comparisons, if any:
`bool` and `IntEnum` members compare as their integer values. -/
def asIntLike : LitValue → Option Int
  | .intV n => some n
  | .boolV b => some (if b then 1 else 0)
  | .enumV _ n => some n
  | _ => none

/-- Python `==` between two modelled literal values. -/
def pyEq (a b : LitValue) : Bool :=
  match asIntLike a, asIntLike b with
  | some m, some n => m == n
  | _, _ =>
    match a, b with
    | .strV s, .strV t => s == t
    | .bytesV s, .bytesV t => s == t
    | .noneV, .noneV => true
    | .noneTypeV, .noneTypeV => true
    | .aliasObj i, .aliasObj j => i == j
    | _, _ => false

/-- `_literal_type_check`: a value passes iff it is an
`int`/`bytes`/`str`/`bool`/`Enum` instance, `None`, or the `NoneType`
sentinel itself.  A `TypeAliasType` object is none of these. -/
def litOk : LitValue → Bool
  | .aliasObj _ => false
  | _ => true

mutual
/-- One member of a `Literal[...]` parameter list: either a concrete value,
or a PEP 695 type alias whose `__value__` is itself a `Literal` form
(`aliasRes`), or an alias whose `__value__` access raises `NameError`
(`aliasUnres`). -/
inductive LitArg where
  | value (v : LitValue)
  | aliasRes (id : Nat) (val : LitArgs)
  | aliasUnres (id : Nat)
deriving DecidableEq, Repr

/-- An embedded list of `Literal` members (`annotation.__args__`). -/
inductive LitArgs where
  | nil
  | cons (head : LitArg) (tail : LitArgs)
deriving DecidableEq, Repr
end

/-- `LitArgs` as a Lean list. -/
def litArgsList : LitArgs → List LitArg
  | .nil => []
  | .cons h t => h :: litArgsList t

/-- Errors raised by `get_literal_values`: `typeErr v` is the `TypeError`
from `_literal_type_check` (carrying the offending value), `nameErr i` the
`NameError` propagated from `alias.__value__` under `eager`. -/
inductive LitError where
  | typeErr (v : LitValue)
  | nameErr (id : Nat)
deriving DecidableEq, Repr

/-- Whether a `Literal` member is `None` or the `NoneType` sentinel
(the `arg is None or arg is typing_objects.NoneType` test). -/
def isNoneEquiv : LitArg → Bool
  | .value .noneV => true
  | .value .noneTypeV => true
  | _ => false

/-- The `keep` branch of `get_literal_values`: members are yielded as-is,
except that `None`/`NoneType` members collapse to a single `None`, tracked
by the `_has_none` flag. -/
def keepGo (typeCheck : Bool) (hasNone : Bool) : LitArgs → Except LitError (List LitValue)
  | .nil => .ok []
  | .cons a rest =>
    match a with
    | .value v =>
      if typeCheck && !litOk v then .error (.typeErr v)
      else if isNoneEquiv (.value v) then
        if hasNone then keepGo typeCheck true rest
        else
          match keepGo typeCheck true rest with
          | .ok out => .ok (.noneV :: out)
          | .error er => .error er
      else
        match keepGo typeCheck hasNone rest with
        | .ok out => .ok (v :: out)
        | .error er => .error er
    | .aliasRes id _ =>
      if typeCheck then .error (.typeErr (.aliasObj id))
      else
        match keepGo typeCheck hasNone rest with
        | .ok out => .ok (.aliasObj id :: out)
        | .error er => .error er
    | .aliasUnres id =>
      if typeCheck then .error (.typeErr (.aliasObj id))
      else
        match keepGo typeCheck hasNone rest with
        | .ok out => .ok (.aliasObj id :: out)
        | .error er => .error er

/-- `dict.fromkeys` over an arbitrary boolean key-equality: keep an element
iff no already-kept element has an equal key; insertion order preserved.
`seen` is the list of keys the dict already holds. -/
def pyFromKeysGo {α : Type} (eqv : α → α → Bool) (seen : List α) : List α → List α
  | [] => []
  | p :: rest =>
    if seen.any (fun q => eqv q p) then pyFromKeysGo eqv seen rest
    else p :: pyFromKeysGo eqv (seen ++ [p]) rest

/-- `dict.fromkeys` starting from an empty dict. -/
def pyFromKeys {α : Type} (eqv : α → α → Bool) (l : List α) : List α :=
  pyFromKeysGo eqv [] l

/-- Equality of the `(value, type(value))` dict keys used by the
`lenient`/`eager` deduplication: tuple `==` is componentwise, value `==` is
`pyEq`, and two type objects are equal iff identical. -/
def keyEq (p q : LitValue × PyType) : Bool :=
  pyEq p.1 q.1 && p.2 == q.2

/-- `None if arg is typing_objects.NoneType else arg` — the value stored in
a `values_and_type` pair (its `PyType` key stays `type(arg)` of the
original). -/
def normNone : LitValue → LitValue
  | .noneTypeV => .noneV
  | v => v

mutual
/-- The pairs one `Literal` member contributes to `values_and_type` in the
`lenient`/`eager` branch of `get_literal_values`.  A resolvable alias
member is expanded by the recursive `get_literal_values` call (including
that call's own deduplication) and each yielded value is re-paired with its
own type. -/
def expandOne (typeCheck eagerFlag : Bool) : LitArg → Except LitError (List (LitValue × PyType))
  | .value v =>
    if typeCheck && !litOk v then .error (.typeErr v)
    else .ok [(normNone v, pyType v)]
  | .aliasUnres id =>
    if eagerFlag then .error (.nameErr id)
    else if typeCheck then .error (.typeErr (.aliasObj id))
    else .ok [(.aliasObj id, .aliasMeta)]
  | .aliasRes _ val =>
    match expandList typeCheck eagerFlag val with
    | .ok pairs => .ok (((pyFromKeys keyEq pairs).map Prod.fst).map (fun a => (a, pyType a)))
    | .error er => .error er

/-- The full `values_and_type` list accumulated over all members. -/
def expandList (typeCheck eagerFlag : Bool) : LitArgs → Except LitError (List (LitValue × PyType))
  | .nil => .ok []
  | .cons a rest =>
    match expandOne typeCheck eagerFlag a with
    | .error er => .error er
    | .ok x =>
      match expandList typeCheck eagerFlag rest with
      | .error er => .error er
      | .ok y => .ok (x ++ y)
end

/-- The `lenient`/`eager` branch of `get_literal_values`: accumulate
`values_and_type`, then `yield from (p for p, _ in dict.fromkeys(values_and_type))`. -/
def expandValues (typeCheck eagerFlag : Bool) (args : LitArgs) : Except LitError (List LitValue) :=
  match expandList typeCheck eagerFlag args with
  | .ok pairs => .ok ((pyFromKeys keyEq pairs).map Prod.fst)
  | .error er => .error er

/-- The `unpack_type_aliases` policy argument. -/
inductive AliasPolicy where
  | keep
  | lenient
  | eager
deriving DecidableEq, Repr

/-- `get_literal_values(annotation, type_check=..., unpack_type_aliases=...)`
applied to the `__args__` of a `Literal` form. -/
def getLiteralValues (typeCheck : Bool) (policy : AliasPolicy) (args : LitArgs) :
    Except LitError (List LitValue) :=
  match policy with
  | .keep => keepGo typeCheck false args
  | .lenient => expandValues typeCheck false args
  | .eager => expandValues typeCheck true args

/-- The value a `keep`-mode member is yielded as (`None`-equivalents are
emitted as `None`, aliases as their own opaque object). -/
def keepNorm : LitArg → LitValue
  | .value .noneTypeV => .noneV
  | .value v => v
  | .aliasRes id _ => .aliasObj id
  | .aliasUnres id => .aliasObj id

/-! ## Type expressions (`inspect_annotation` and `_parsing.py`) -/

mutual
/-- A Python type expression, one constructor per classification the
source's predicates can make of a runtime object:

* `atomic` — a bare type (class or other opaque object); `get_origin` is `None`.
* `tvar` — a `TypeVar`; `get_origin` is `None`.
* `fwdRef` — a `ForwardRef`, or a plain string standing in for one.
* `paramSpecCapture` — a `P.args` / `P.kwargs` capture form
  (`is_paramspecargs` / `is_paramspeckwargs`).
* `deprecatedAlias` — a bare deprecated alias such as `typing.List`
  (member of `typing_objects.DEPRECATED_ALIASES`); `get_origin` returns the
  underlying runtime type, so its origin is present.
* `bareFinal` — the bare `typing.Final` object (`is_final`); no origin.
* `anyObj` — `typing.Any`, the placeholder substituted for a bare `Final`.
* `qual q inner` — a qualifier form `Final[inner]`, `ClassVar[inner]`,
  `Required[inner]`, `NotRequired[inner]` or `ReadOnly[inner]`; the origin
  is the qualifier marker and `__args__` is `(inner,)`.
* `annotated inner meta` — an `Annotated[inner, *meta]` form; the origin is
  `Annotated`, `__origin__` is `inner`, `__metadata__` is `meta`
  (metadata values are modelled as naturals).  Python flattens directly
  nested `Annotated` forms at construction, so `inner` is produced already
  flattened when translating a real annotation.
* `aliasRes id val` — a bare PEP 695 `TypeAliasType` whose `__value__` is
  `val`; `get_origin` is `None`.
* `aliasUnres id` — a bare `TypeAliasType` whose `__value__` raises
  `NameError`.
* `aliasAppRes id val args` / `aliasAppUnres id args` — a parameterized
  alias `A[args...]`; the origin is the `TypeAliasType` itself.
* `generic originId args` — any other parameterized generic
  (e.g. `list[int]`); the origin is a plain runtime type.
* `genericMarker args` — `typing.Generic` or `Generic[...]`; `get_origin`
  returns `Generic` for both.
* `union args` — a union form; the origin is the union marker.
* `lit args` — a `Literal[...]` form; the origin is `Literal` and the
  arguments are values, not type expressions. -/
inductive TypeExpr where
  | atomic (id : Nat)
  | tvar (id : Nat)
  | fwdRef (id : Nat)
  | paramSpecCapture (id : Nat)
  | deprecatedAlias (id : Nat)
  | bareFinal
  | anyObj
  | qual (q : Qualifier) (inner : TypeExpr)
  | annotated (inner : TypeExpr) (meta : List Nat)
  | aliasRes (id : Nat) (val : TypeExpr)
  | aliasUnres (id : Nat)
  | aliasAppRes (id : Nat) (val : TypeExpr) (args : TypeArgs)
  | aliasAppUnres (id : Nat) (args : TypeArgs)
  | generic (originId : Nat) (args : TypeArgs)
  | genericMarker (args : TypeArgs)
  | union (args : TypeArgs)
  | lit (args : LitArgs)
deriving DecidableEq, Repr

/-- An embedded list of type expressions (`hint.__args__`). -/
inductive TypeArgs where
  | nil
  | cons (head : TypeExpr) (tail : TypeArgs)
deriving DecidableEq, Repr
end

/-- `TypeArgs` as a Lean list. -/
def typeArgsList : TypeArgs → List TypeExpr
  | .nil => []
  | .cons h t => h :: typeArgsList t

/-- What `get_origin` can classify an origin as, when present. -/
inductive OriginK where
  | qualM (q : Qualifier)
  | annotatedM
  | unionM
  | genericM
  | aliasM
  | literalM
  | plain (id : Nat)
deriving DecidableEq, Repr

/-- `get_origin(annotation)`, classified.  Bare objects (types, type
variables, forward references, bare aliases, bare `Final`, `Any`) have no
origin; a bare deprecated alias has the underlying runtime type as origin;
a `P.args` capture form has the `ParamSpec` object as origin. -/
def getOrigin : TypeExpr → Option OriginK
  | .atomic _ => none
  | .tvar _ => none
  | .fwdRef _ => none
  | .paramSpecCapture id => some (.plain id)
  | .deprecatedAlias id => some (.plain id)
  | .bareFinal => none
  | .anyObj => none
  | .qual q _ => some (.qualM q)
  | .annotated _ _ => some .annotatedM
  | .aliasRes _ _ => none
  | .aliasUnres _ => none
  | .aliasAppRes _ _ _ => some .aliasM
  | .aliasAppUnres _ _ => some .aliasM
  | .generic oid _ => some (.plain oid)
  | .genericMarker _ => some .genericM
  | .union _ => some .unionM
  | .lit _ => some .literalM

mutual
/-- The type variables occurring in a value, in first-occurrence order with
duplicates (deduplicated below); recursion mirrors where Python collects
`__parameters__`: inside qualifier and `Annotated` wrappers, generic, union
and parameterized-alias arguments, but not inside a bare alias object. -/
def tvarsOf : TypeExpr → List Nat
  | .tvar i => [i]
  | .qual _ inner => tvarsOf inner
  | .annotated inner _ => tvarsOf inner
  | .generic _ args => tvarsArgs args
  | .genericMarker args => tvarsArgs args
  | .union args => tvarsArgs args
  | .aliasAppRes _ _ args => tvarsArgs args
  | .aliasAppUnres _ args => tvarsArgs args
  | _ => []

/-- `tvarsOf` over an argument list. -/
def tvarsArgs : TypeArgs → List Nat
  | .nil => []
  | .cons h t => tvarsOf h ++ tvarsArgs t
end

/-- `value.__parameters__`: the distinct type variables of a value in
first-occurrence order. -/
def typeParams (e : TypeExpr) : List Nat :=
  pyFromKeysGo (fun a b => a == b) [] (tvarsOf e)

mutual
/-- Substitution of type variables by type expressions, as performed by
Python when subscripting a generic form: it rewrites qualifier and
`Annotated` wrappers, generic/union/parameterized-alias argument lists, and
leaves bare aliases, metadata and `Literal` parameters untouched. -/
def substE (σ : List (Nat × TypeExpr)) : TypeExpr → TypeExpr
  | .tvar i =>
    match σ.find? (fun p => p.1 == i) with
    | some p => p.2
    | none => .tvar i
  | .qual q inner => .qual q (substE σ inner)
  | .annotated inner meta => .annotated (substE σ inner) meta
  | .generic oid args => .generic oid (substArgs σ args)
  | .genericMarker args => .genericMarker (substArgs σ args)
  | .union args => .union (substArgs σ args)
  | .aliasAppRes id v args => .aliasAppRes id v (substArgs σ args)
  | .aliasAppUnres id args => .aliasAppUnres id (substArgs σ args)
  | e => e

/-- `substE` over an argument list. -/
def substArgs (σ : List (Nat × TypeExpr)) : TypeArgs → TypeArgs
  | .nil => .nil
  | .cons h t => .cons (substE σ h) (substArgs σ t)
end

/-- `value[annotation.__args__]` — parameterizing an alias value.  Python
raises `TypeError` when the value is not a parameterized generic (no
`__parameters__`) or the argument count does not fit; the caller swallows
that `TypeError` and keeps the unparameterized value (`none` here). -/
def substOpt (v : TypeExpr) (args : TypeArgs) : Option TypeExpr :=
  let ps := typeParams v
  let as := typeArgsList args
  if ps.isEmpty || ps.length != as.length then none
  else some (substE (ps.zip as) v)

/-- Errors escaping the inspection machinery: `forbidden q` is
`ForbiddenQualifier(q)` (carrying exactly the argument passed at the raise
site), `nameErr i` a `NameError` propagated under the `eager` policy. -/
inductive InspectError where
  | forbidden (q : Qualifier)
  | nameErr (id : Nat)
deriving DecidableEq, Repr

/-- Result of a fuel-bounded computation: `fuelOut` marks fuel exhaustion
(the source would still be running), `raise` a propagated exception. -/
inductive FuelRes (α : Type) where
  | fuelOut
  | raise (e : InspectError)
  | ok (a : α)
deriving DecidableEq, Repr

/-- `_unpack_annotated_inner(annotation, unpack_type_aliases, check_annotated)`.
Branches, in source order:

* `check_annotated and is_annotated(origin)`: peel the `Annotated` layer,
  recurse on the annotated type with `check_annotated=False`, and append
  this layer's metadata after the recursion's (`sub_meta + metadata`).
* `is_typealiastype(annotation)`: read `__value__` (`NameError` under
  `eager` propagates, under `lenient` falls through to the final return);
  recurse on the value with `check_annotated=True` and keep the result only
  if it carries metadata, otherwise return the alias itself untouched.
* `is_typealiastype(origin)`: same, after emulating the parameterization
  `value = value[annotation.__args__]` with `TypeError` swallowed.
* otherwise: `return annotation, []`. -/
def unpackInner (eagerFlag : Bool) : Nat → Bool → TypeExpr → FuelRes (TypeExpr × List Nat)
  | 0, _, _ => .fuelOut
  | fuel + 1, checkAnn, e =>
    match e with
    | .annotated inner meta =>
      if checkAnn then
        match unpackInner eagerFlag fuel false inner with
        | .ok (t, sub) => .ok (t, sub ++ meta)
        | .raise er => .raise er
        | .fuelOut => .fuelOut
      else .ok (.annotated inner meta, [])
    | .aliasUnres id =>
      if eagerFlag then .raise (.nameErr id) else .ok (.aliasUnres id, [])
    | .aliasRes id v =>
      match unpackInner eagerFlag fuel true v with
      | .ok (t, meta) =>
        if meta.isEmpty then .ok (.aliasRes id v, []) else .ok (t, meta)
      | .raise er => .raise er
      | .fuelOut => .fuelOut
    | .aliasAppUnres id args =>
      if eagerFlag then .raise (.nameErr id) else .ok (.aliasAppUnres id args, [])
    | .aliasAppRes id v args =>
      match unpackInner eagerFlag fuel true ((substOpt v args).getD v) with
      | .ok (t, meta) =>
        if meta.isEmpty then .ok (.aliasAppRes id v args, []) else .ok (t, meta)
      | .raise er => .raise er
      | .fuelOut => .fuelOut
    | e => .ok (e, [])

/-- `_unpack_annotated(annotation, unpack_type_aliases=...)`: under `keep`,
peel exactly one `Annotated` layer when present; otherwise delegate to
`_unpack_annotated_inner` with `check_annotated=True`. -/
def unpackAnn (policy : AliasPolicy) (fuel : Nat) (e : TypeExpr) : FuelRes (TypeExpr × List Nat) :=
  match policy with
  | .keep =>
    match e with
    | .annotated inner meta => .ok (inner, meta)
    | e => .ok (e, [])
  | .lenient => unpackInner false fuel true e
  | .eager => unpackInner true fuel true e

/-- The `InspectedAnnotation` named tuple: the final type expression, the
qualifier set (a list with set-insertion semantics) and the metadata. -/
structure InspectedAnn where
  type : TypeExpr
  qualifiers : List Qualifier
  metadata : List Nat
deriving DecidableEq, Repr

/-- `qualifiers.add(q)` on the Python set, modelled with insertion order. -/
def insertQ (q : Qualifier) (s : List Qualifier) : List Qualifier :=
  if q ∈ s then s else s ++ [q]

/-- The literal argument the source passes to `ForbiddenQualifier` in each
qualifier branch of `inspect_annotation`: every branch passes its own
qualifier, except the `is_readonly` branch, which passes `'not_required'`
(`raise ForbiddenQualifier('not_required')` on the `read_only` path). -/
def raisedQualifierArg : Qualifier → Qualifier
  | .read_only => .not_required
  | q => q

/-- The `while True` loop of `inspect_annotation`.  One fuel unit is one
iteration.  Each iteration unpacks `Annotated` layers (prepending freshly
peeled metadata, `metadata.extendleft(reversed(_meta))`), then inspects the
origin: a qualifier origin is checked against the allow-list and peeled
(`annotation = annotation.__args__[0]`); any other present origin breaks
the loop.  When the origin is absent the source's loop body simply ends —
there is no `break` — so the model iterates again on the same state. -/
def inspectLoop (policy : AliasPolicy) (allowed : List Qualifier) :
    Nat → TypeExpr → List Qualifier → List Nat → FuelRes (TypeExpr × List Qualifier × List Nat)
  | 0, _, _, _ => .fuelOut
  | fuel + 1, e, qs, meta =>
    match unpackAnn policy fuel e with
    | .fuelOut => .fuelOut
    | .raise er => .raise er
    | .ok (t, m) =>
      if !m.isEmpty then inspectLoop policy allowed fuel t qs (m ++ meta)
      else
        match getOrigin t, t with
        | some (.qualM q), .qual _ inner =>
          if q ∉ allowed then .raise (.forbidden (raisedQualifierArg q))
          else inspectLoop policy allowed fuel inner (insertQ q qs) meta
        | some _, _ => .ok (t, qs, meta)
        | none, _ => inspectLoop policy allowed fuel t qs meta

/-- `inspect_annotation(annotation, annotation_source=src, unpack_type_aliases=policy)`:
run the loop, then handle `Final` used as a bare annotation (check the
allow-list, record the qualifier and replace the type by `Any`). -/
def inspectAnn (fuel : Nat) (e : TypeExpr) (src : AnnotationSource) (policy : AliasPolicy) :
    FuelRes InspectedAnn :=
  let allowed := allowedQualifiers src
  match inspectLoop policy allowed fuel e [] [] with
  | .fuelOut => .fuelOut
  | .raise er => .raise er
  | .ok (t, qs, meta) =>
    if t = .bareFinal then
      if .final ∉ allowed then .raise (.forbidden .final)
      else .ok ⟨.anyObj, insertQ .final qs, meta⟩
    else .ok ⟨t, qs, meta⟩

/-! ## Visitor and transformer (`introspection/_parsing.py`) -/

/-- Errors escaping the traversal: `unevaluated r` is
`UnevaluatedTypeHint(r)` carrying the forward reference that was not
evaluated; `invalidExpr` is the `ValueError` raised when `typing.Generic`
(or `Generic[...]`) appears in an annotation expression. -/
inductive VisitError where
  | unevaluated (id : Nat)
  | invalidExpr
deriving DecidableEq, Repr

mutual
/-- `TypeHintVisitor.visit`, with the dispatch of the source: `P.args` /
`P.kwargs` capture forms go to bare-hint handling; a `Generic` origin
raises `ValueError`; a bare deprecated alias is treated as a bare hint even
though its origin is present; union forms visit each alternative; any other
present origin visits each positional argument, except `Literal`, whose
arguments are values and are not recursed into; an absent origin is a bare
hint.  Bare-hint handling raises `UnevaluatedTypeHint` exactly on forward
references (and strings standing in for one). -/
def visitE : TypeExpr → Except VisitError Unit
  | .paramSpecCapture _ => .ok ()
  | .genericMarker _ => .error .invalidExpr
  | .deprecatedAlias _ => .ok ()
  | .union args => visitArgsV args
  | .qual _ inner => visitE inner
  | .annotated inner _ => visitE inner
  | .aliasAppRes _ _ args => visitArgsV args
  | .aliasAppUnres _ args => visitArgsV args
  | .generic _ args => visitArgsV args
  | .lit _ => .ok ()
  | .fwdRef id => .error (.unevaluated id)
  | .atomic _ => .ok ()
  | .tvar _ => .ok ()
  | .bareFinal => .ok ()
  | .anyObj => .ok ()
  | .aliasRes _ _ => .ok ()
  | .aliasUnres _ => .ok ()

/-- `for arg in hint.__args__: self.visit(arg)`. -/
def visitArgsV : TypeArgs → Except VisitError Unit
  | .nil => .ok ()
  | .cons h t =>
    match visitE h with
    | .ok _ => visitArgsV t
    | .error er => .error er
end

mutual
/-- The forward references the visitor's dispatch rule reaches, in
traversal order (defined independently of `visitE`: it records every
reference at a dispatch-reachable position, whether or not an earlier
error would already have aborted the traversal). -/
def refsOf : TypeExpr → List Nat
  | .fwdRef id => [id]
  | .union args => refsArgs args
  | .qual _ inner => refsOf inner
  | .annotated inner _ => refsOf inner
  | .aliasAppRes _ _ args => refsArgs args
  | .aliasAppUnres _ args => refsArgs args
  | .generic _ args => refsArgs args
  | _ => []

/-- `refsOf` over an argument list. -/
def refsArgs : TypeArgs → List Nat
  | .nil => []
  | .cons h t => refsOf h ++ refsArgs t
end

mutual
/-- No `typing.Generic` marker at any dispatch-reachable position (such a
marker aborts the traversal with `ValueError` instead). -/
def markerFree : TypeExpr → Bool
  | .genericMarker _ => false
  | .union args => markerFreeArgs args
  | .qual _ inner => markerFree inner
  | .annotated inner _ => markerFree inner
  | .aliasAppRes _ _ args => markerFreeArgs args
  | .aliasAppUnres _ args => markerFreeArgs args
  | .generic _ args => markerFreeArgs args
  | _ => true

/-- `markerFree` over an argument list. -/
def markerFreeArgs : TypeArgs → Bool
  | .nil => true
  | .cons h t => markerFree h && markerFreeArgs t
end

mutual
/-- `TypeHintTransformer.visit`: same dispatch as the visitor, but each
branch rebuilds.  `visit_generic_alias` returns `Literal` forms unchanged,
transforms every argument, and returns the original hint when the
transformed arguments compare equal to the originals
(`if visited_args == hint.__args__: return hint`), rebuilding the
parameterized form otherwise; `visit_union` does the same over the union's
alternatives.  Bare-hint handling returns the hint itself, except forward
references, which raise `UnevaluatedTypeHint`. -/
def transformE : TypeExpr → Except VisitError TypeExpr
  | .paramSpecCapture id => .ok (.paramSpecCapture id)
  | .genericMarker _ => .error .invalidExpr
  | .deprecatedAlias id => .ok (.deprecatedAlias id)
  | .union args =>
    match transformArgsT args with
    | .error er => .error er
    | .ok na =>
      if na = args then .ok (.union args)
      else .ok (.union na)
  | .qual q inner =>
    match transformE inner with
    | .error er => .error er
    | .ok ni =>
      if ni = inner then .ok (.qual q inner)
      else .ok (.qual q ni)
  | .annotated inner meta =>
    match transformE inner with
    | .error er => .error er
    | .ok ni =>
      if ni = inner then .ok (.annotated inner meta)
      else .ok (.annotated ni meta)
  | .aliasAppRes id v args =>
    match transformArgsT args with
    | .error er => .error er
    | .ok na =>
      if na = args then .ok (.aliasAppRes id v args)
      else .ok (.aliasAppRes id v na)
  | .aliasAppUnres id args =>
    match transformArgsT args with
    | .error er => .error er
    | .ok na =>
      if na = args then .ok (.aliasAppUnres id args)
      else .ok (.aliasAppUnres id na)
  | .generic oid args =>
    match transformArgsT args with
    | .error er => .error er
    | .ok na =>
      if na = args then .ok (.generic oid args)
      else .ok (.generic oid na)
  | .lit args => .ok (.lit args)
  | .fwdRef id => .error (.unevaluated id)
  | .atomic id => .ok (.atomic id)
  | .tvar id => .ok (.tvar id)
  | .bareFinal => .ok .bareFinal
  | .anyObj => .ok .anyObj
  | .aliasRes id v => .ok (.aliasRes id v)
  | .aliasUnres id => .ok (.aliasUnres id)

/-- `tuple(self.visit(arg) for arg in hint.__args__)`. -/
def transformArgsT : TypeArgs → Except VisitError TypeArgs
  | .nil => .ok .nil
  | .cons h t =>
    match transformE h with
    | .error er => .error er
    | .ok nh =>
      match transformArgsT t with
      | .error er => .error er
      | .ok nt => .ok (.cons nh nt)
end

mutual
/-- No `Annotated` form anywhere in the expression — including inside alias
values and parameterized-alias arguments (a "metadata wrapper"-free value
in the sense of the specification). -/
def annFree : TypeExpr → Bool
  | .annotated _ _ => false
  | .qual _ inner => annFree inner
  | .aliasRes _ v => annFree v
  | .aliasAppRes _ v args => annFree v && annFreeArgs args
  | .aliasAppUnres _ args => annFreeArgs args
  | .generic _ args => annFreeArgs args
  | .genericMarker args => annFreeArgs args
  | .union args => annFreeArgs args
  | _ => true

/-- `annFree` over an argument list. -/
def annFreeArgs : TypeArgs → Bool
  | .nil => true
  | .cons h t => annFree h && annFreeArgs t
end

/-! ## Theorems -/

/-- When the loop of `inspect_annotation` reaches a bare atomic type it
iterates forever: no amount of fuel produces a result. -/
theorem inspectLoop_atomic_diverges (policy : AliasPolicy) (allowed : List Qualifier)
    (fuel id : Nat) (qs : List Qualifier) (meta : List Nat) :
    inspectLoop policy allowed fuel (.atomic id) qs meta = .fuelOut := by
  induction fuel with
  | zero => rfl
  | succ n ih =>
    cases policy with
    | keep => simpa [inspectLoop, unpackAnn, getOrigin] using ih
    | lenient =>
      cases n with
      | zero => rfl
      | succ k => simpa [inspectLoop, unpackAnn, unpackInner, getOrigin] using ih
    | eager =>
      cases n with
      | zero => rfl
      | succ k => simpa [inspectLoop, unpackAnn, unpackInner, getOrigin] using ih

/-- After peeling an allowed `final` qualifier the loop lands on the bare
atomic inner type and therefore never finishes. -/
theorem inspectLoop_qual_final_atomic_diverges (policy : AliasPolicy) (fuel id : Nat)
    (qs : List Qualifier) (meta : List Nat) :
    inspectLoop policy (allowedQualifiers .ANY) fuel (.qual .final (.atomic id)) qs meta
      = .fuelOut := by
  cases fuel with
  | zero => rfl
  | succ n =>
    have h := inspectLoop_atomic_diverges policy (allowedQualifiers .ANY) n id
      (insertQ .final qs) meta
    cases policy with
    | keep =>
      simp [inspectLoop, unpackAnn, getOrigin, allowedQualifiers, insertQ] at h ⊢
      simp [h]
    | lenient =>
      cases n with
      | zero => rfl
      | succ k =>
        simp [inspectLoop, unpackAnn, unpackInner, getOrigin, allowedQualifiers, insertQ] at h ⊢
        simp [h]
    | eager =>
      cases n with
      | zero => rfl
      | succ k =>
        simp [inspectLoop, unpackAnn, unpackInner, getOrigin, allowedQualifiers, insertQ] at h ⊢
        simp [h]

/-- Claim C1: the claim states that the unwrapping loop of
`inspect_annotation` exits when the structural origin is absent, so that
the function returns an `InspectedAnnotation` for every annotation that
reduces to a bare type.  The source has no `break` for the
origin-absent case: on a bare atomic type (and on a qualifier-wrapped
atomic type under a permitting source) the loop re-runs forever on the
same state, so for every fuel the model reports the computation still
running — the function never returns. -/
theorem claim_C1_no_exit_on_bare :
    (∀ (policy : AliasPolicy) (src : AnnotationSource) (fuel id : Nat),
      inspectAnn fuel (.atomic id) src policy = .fuelOut) ∧
    (∀ (policy : AliasPolicy) (fuel id : Nat),
      inspectAnn fuel (.qual .final (.atomic id)) .ANY policy = .fuelOut) := by
  constructor
  · intro policy src fuel id
    simp [inspectAnn, inspectLoop_atomic_diverges]
  · intro policy fuel id
    simp [inspectAnn, inspectLoop_qual_final_atomic_diverges]

/-- Claim C2, counterexample: the specification's example
`metadata_wrap(A, [1])` wrapping `qualifier_wrap(final, metadata_wrap(B, [2])`
wrapping `metadata_wrap(C, [3]))` — in runtime form
`Annotated[Final[Annotated[core, 3, 2]], 1]`, since Python flattens the two
inner `Annotated` layers inner-first — inspected with source `ANY` yields
metadata `[3, 2, 1]` (innermost first), not `[1, 2, 3]` as the claim
states.  (The wrapped core is a parameterized generic, the only node at
which the source's loop exits.) -/
theorem claim_C2_counterexample :
    inspectAnn 10
        (.annotated (.qual .final (.annotated (.generic 5 (.cons (.atomic 6) .nil)) [3, 2])) [1])
        .ANY .eager
      = .ok ⟨.generic 5 (.cons (.atomic 6) .nil), [.final], [3, 2, 1]⟩ ∧
    (([3, 2, 1] : List Nat) == [1, 2, 3]) = false :=
  ⟨rfl, rfl⟩

/-- Claim C2, amended: for nested metadata wrappers the metadata sequence
lists the innermost wrapper's metadata first and the outermost wrapper's
last.  For every annotation of the example's shape
`Annotated[Final[Annotated[generic, m2...]], m1...]` whose core is a
parameterized generic (the loop only exits at such a node), inspection
with source `ANY` yields that core, qualifier set `{final}`, and metadata
`m2 ++ m1` — the inner wrapper's values before the outer wrapper's. -/
theorem claim_C2_amended (f oid : Nat) (gargs : TypeArgs) (m1 m2 : List Nat) :
    inspectAnn (f + 5)
        (.annotated (.qual .final (.annotated (.generic oid gargs) m2)) m1) .ANY .eager
      = .ok ⟨.generic oid gargs, [.final], m2 ++ m1⟩ := by
  cases m1 <;> cases m2 <;>
    simp [inspectAnn, inspectLoop, unpackAnn, unpackInner, getOrigin, allowedQualifiers, insertQ]

/-- Claim C3: the claim states that `ForbiddenQualifier` carries exactly
the qualifier kind that was encountered and disallowed.  The `is_readonly`
branch of the source instead raises `ForbiddenQualifier('not_required')`:
inspecting `ReadOnly[int]` under the `CLASS` source (which disallows
`read_only`) raises an error carrying `not_required`, not `read_only`. -/
theorem claim_C3_read_only_misreported :
    inspectAnn 5 (.qual .read_only (.atomic 0)) .CLASS .eager
      = .raise (.forbidden .not_required) ∧
    (Qualifier.not_required == Qualifier.read_only) = false :=
  ⟨rfl, rfl⟩

/-- Claim C7: the source-to-allowed-qualifiers mapping is a total match
with no default arm, and maps every source to exactly the specified set:
assignment/variable to `{final}`, class body to `{final, class_var}`,
`TypedDict` body to `{required, not_required, read_only}`, named-tuple
body, function and bare to the empty set, and `ANY` to all five kinds. -/
theorem claim_C7_allowed_qualifiers :
    (∀ q, q ∈ allowedQualifiers .ASSIGNMENT_OR_VARIABLE ↔ q = .final) ∧
    (∀ q, q ∈ allowedQualifiers .CLASS ↔ (q = .final ∨ q = .class_var)) ∧
    (∀ q, q ∈ allowedQualifiers .TYPED_DICT ↔
      (q = .required ∨ q = .not_required ∨ q = .read_only)) ∧
    allowedQualifiers .NAMED_TUPLE = [] ∧
    allowedQualifiers .FUNCTION = [] ∧
    allowedQualifiers .BARE = [] ∧
    (∀ q, q ∈ allowedQualifiers .ANY) := by
  refine ⟨?_, ?_, ?_, rfl, rfl, rfl, ?_⟩ <;> intro q <;> cases q <;> simp [allowedQualifiers]

/-- Claim C10: extracting from `Literal[NoneType, None]` under the
`lenient` or `eager` policy yields `None` twice — the sentinel is
normalized to the value `None` but keyed with its own runtime kind
(`type`), distinct from `NoneType`, so the two members do not collapse —
while under `keep` they collapse to a single `None`. -/
theorem claim_C10_none_kinds :
    getLiteralValues false .eager (.cons (.value .noneTypeV) (.cons (.value .noneV) .nil))
      = .ok [.noneV, .noneV] ∧
    getLiteralValues false .lenient (.cons (.value .noneTypeV) (.cons (.value .noneV) .nil))
      = .ok [.noneV, .noneV] ∧
    getLiteralValues false .keep (.cons (.value .noneTypeV) (.cons (.value .noneV) .nil))
      = .ok [.noneV] :=
  ⟨rfl, rfl, rfl⟩

/-- Elements of an embedded argument list inherit `annFree`. -/
theorem annFree_of_mem (args : TypeArgs) (hall : annFreeArgs args = true) :
    ∀ e ∈ typeArgsList args, annFree e = true := by
  cases args with
  | nil => simp [typeArgsList]
  | cons h t =>
    simp only [annFreeArgs, Bool.and_eq_true] at hall
    intro e he
    simp only [typeArgsList, List.mem_cons] at he
    cases he with
    | inl h1 => exact h1 ▸ hall.1
    | inr h2 => exact annFree_of_mem t hall.2 e h2

mutual
/-- Substitution preserves `Annotated`-freeness when every substituted
value is itself `Annotated`-free. -/
theorem annFree_substE (σ : List (Nat × TypeExpr)) (e : TypeExpr)
    (hσ : ∀ p ∈ σ, annFree p.2 = true) (he : annFree e = true) :
    annFree (substE σ e) = true := by
  cases e with
  | tvar i =>
    simp only [substE]
    cases hf : σ.find? (fun p => p.1 == i) with
    | none => rfl
    | some p => exact hσ p (List.mem_of_find?_eq_some hf)
  | qual q inner =>
    simp only [substE, annFree] at he ⊢
    exact annFree_substE σ inner hσ he
  | annotated inner meta => simp [annFree] at he
  | generic oid args =>
    simp only [substE, annFree] at he ⊢
    exact annFreeArgs_substArgs σ args hσ he
  | genericMarker args =>
    simp only [substE, annFree] at he ⊢
    exact annFreeArgs_substArgs σ args hσ he
  | union args =>
    simp only [substE, annFree] at he ⊢
    exact annFreeArgs_substArgs σ args hσ he
  | aliasAppRes id v args =>
    simp only [substE, annFree, Bool.and_eq_true] at he ⊢
    exact ⟨he.1, annFreeArgs_substArgs σ args hσ he.2⟩
  | aliasAppUnres id args =>
    simp only [substE, annFree] at he ⊢
    exact annFreeArgs_substArgs σ args hσ he
  | atomic id => rfl
  | fwdRef id => rfl
  | paramSpecCapture id => rfl
  | deprecatedAlias id => rfl
  | bareFinal => rfl
  | anyObj => rfl
  | aliasRes id v => simpa [substE, annFree] using he
  | aliasUnres id => rfl
  | lit args => rfl

/-- `annFree_substE` over an argument list. -/
theorem annFreeArgs_substArgs (σ : List (Nat × TypeExpr)) (l : TypeArgs)
    (hσ : ∀ p ∈ σ, annFree p.2 = true) (hl : annFreeArgs l = true) :
    annFreeArgs (substArgs σ l) = true := by
  cases l with
  | nil => rfl
  | cons h t =>
    simp only [annFreeArgs, Bool.and_eq_true] at hl
    simp only [substArgs, annFreeArgs, Bool.and_eq_true]
    exact ⟨annFree_substE σ h hσ hl.1, annFreeArgs_substArgs σ t hσ hl.2⟩
end

/-- The (possibly failed) parameterization of an `Annotated`-free alias
value with `Annotated`-free arguments is `Annotated`-free. -/
theorem annFree_substOptD (v : TypeExpr) (args : TypeArgs)
    (hv : annFree v = true) (ha : annFreeArgs args = true) :
    annFree ((substOpt v args).getD v) = true := by
  cases hs : substOpt v args with
  | none => simpa using hv
  | some s =>
    simp only [substOpt] at hs
    split at hs
    · exact absurd hs (by simp)
    · cases hs
      simp only [Option.getD_some]
      refine annFree_substE _ v ?_ hv
      intro p hp
      obtain ⟨a, b⟩ := p
      exact annFree_of_mem args ha b (List.of_mem_zip hp).2

/-- On an `Annotated`-free expression, `_unpack_annotated_inner` can only
return the expression itself, with no metadata. -/
theorem unpackInner_annFree (flag : Bool) :
    ∀ (fuel : Nat) (ch : Bool) (e t : TypeExpr) (m : List Nat),
      annFree e = true → unpackInner flag fuel ch e = .ok (t, m) → t = e ∧ m = [] := by
  intro fuel
  induction fuel with
  | zero =>
    intro ch e t m _ h
    simp [unpackInner] at h
  | succ n ih =>
    intro ch e t m he h
    cases e with
    | annotated inner meta => simp [annFree] at he
    | aliasUnres id =>
      simp only [unpackInner] at h
      cases flag with
      | true => cases h
      | false => cases h; exact ⟨rfl, rfl⟩
    | aliasRes id v =>
      simp only [unpackInner] at h
      cases hr : unpackInner flag n true v with
      | fuelOut => simp [hr] at h
      | raise er => simp [hr] at h
      | ok tm =>
        obtain ⟨t1, m1⟩ := tm
        obtain ⟨ht1, hm1⟩ := ih true v t1 m1 (by simpa [annFree] using he) hr
        simp only [hr] at h
        split at h
        · cases h; exact ⟨rfl, rfl⟩
        · rename_i hcond; exact absurd (by simp [hm1]) hcond
    | aliasAppUnres id args =>
      simp only [unpackInner] at h
      cases flag with
      | true => cases h
      | false => cases h; exact ⟨rfl, rfl⟩
    | aliasAppRes id v args =>
      simp only [unpackInner] at h
      have hfree : annFree ((substOpt v args).getD v) = true := by
        simp only [annFree, Bool.and_eq_true] at he
        exact annFree_substOptD v args he.1 he.2
      cases hr : unpackInner flag n true ((substOpt v args).getD v) with
      | fuelOut => simp [hr] at h
      | raise er => simp [hr] at h
      | ok tm =>
        obtain ⟨t1, m1⟩ := tm
        obtain ⟨ht1, hm1⟩ := ih true _ t1 m1 hfree hr
        simp only [hr] at h
        split at h
        · cases h; exact ⟨rfl, rfl⟩
        · rename_i hcond; exact absurd (by simp [hm1]) hcond
    | qual q inner => simp only [unpackInner] at h; cases h; exact ⟨rfl, rfl⟩
    | atomic id => simp only [unpackInner] at h; cases h; exact ⟨rfl, rfl⟩
    | tvar id => simp only [unpackInner] at h; cases h; exact ⟨rfl, rfl⟩
    | fwdRef id => simp only [unpackInner] at h; cases h; exact ⟨rfl, rfl⟩
    | paramSpecCapture id => simp only [unpackInner] at h; cases h; exact ⟨rfl, rfl⟩
    | deprecatedAlias id => simp only [unpackInner] at h; cases h; exact ⟨rfl, rfl⟩
    | bareFinal => simp only [unpackInner] at h; cases h; exact ⟨rfl, rfl⟩
    | anyObj => simp only [unpackInner] at h; cases h; exact ⟨rfl, rfl⟩
    | generic oid args => simp only [unpackInner] at h; cases h; exact ⟨rfl, rfl⟩
    | genericMarker args => simp only [unpackInner] at h; cases h; exact ⟨rfl, rfl⟩
    | union args => simp only [unpackInner] at h; cases h; exact ⟨rfl, rfl⟩
    | lit args => simp only [unpackInner] at h; cases h; exact ⟨rfl, rfl⟩

/-- If unpacking a bare alias produced no metadata, the result is the alias
reference itself. -/
theorem unpackInner_aliasRes_empty (flag : Bool) (fuel id : Nat) (v t : TypeExpr) (m : List Nat)
    (h : unpackInner flag fuel true (.aliasRes id v) = .ok (t, m)) (hm : m = []) :
    t = .aliasRes id v := by
  cases fuel with
  | zero => simp [unpackInner] at h
  | succ n =>
    simp only [unpackInner] at h
    cases hr : unpackInner flag n true v with
    | fuelOut => simp [hr] at h
    | raise er => simp [hr] at h
    | ok tm =>
      obtain ⟨t1, m1⟩ := tm
      simp only [hr] at h
      split at h
      · cases h; rfl
      · cases h
        rename_i hcond
        exact absurd (by simp [hm]) hcond

/-- If unpacking a parameterized alias produced no metadata, the result is
the alias application itself. -/
theorem unpackInner_aliasApp_empty (flag : Bool) (fuel id : Nat) (v t : TypeExpr)
    (args : TypeArgs) (m : List Nat)
    (h : unpackInner flag fuel true (.aliasAppRes id v args) = .ok (t, m)) (hm : m = []) :
    t = .aliasAppRes id v args := by
  cases fuel with
  | zero => simp [unpackInner] at h
  | succ n =>
    simp only [unpackInner] at h
    cases hr : unpackInner flag n true ((substOpt v args).getD v) with
    | fuelOut => simp [hr] at h
    | raise er => simp [hr] at h
    | ok tm =>
      obtain ⟨t1, m1⟩ := tm
      simp only [hr] at h
      split at h
      · cases h; rfl
      · cases h
        rename_i hcond
        exact absurd (by simp [hm]) hcond

/-- Claim C9: under the `lenient` (`flag = false`) or `eager`
(`flag = true`) policy, `_unpack_annotated_inner` replaces a lazy type
alias reference — bare or parameterized — by its resolved, unwrapped value
only when that expansion yields at least one metadata value; whenever the
expansion yields no metadata (in particular whenever the transitively
resolved value contains no `Annotated` wrapper at all), the alias
reference itself is returned unchanged. -/
theorem claim_C9_alias_kept_without_metadata (flag : Bool) (fuel id : Nat)
    (v t : TypeExpr) (m : List Nat) :
    (unpackInner flag fuel true (.aliasRes id v) = .ok (t, m) →
      (m = [] → t = .aliasRes id v) ∧ (t ≠ .aliasRes id v → m ≠ [])) ∧
    (∀ args, unpackInner flag fuel true (.aliasAppRes id v args) = .ok (t, m) →
      (m = [] → t = .aliasAppRes id v args) ∧ (t ≠ .aliasAppRes id v args → m ≠ [])) ∧
    (annFree v = true → unpackInner flag fuel true (.aliasRes id v) = .ok (t, m) →
      t = .aliasRes id v ∧ m = []) ∧
    (∀ args, annFree v = true → annFreeArgs args = true →
      unpackInner flag fuel true (.aliasAppRes id v args) = .ok (t, m) →
      t = .aliasAppRes id v args ∧ m = []) := by
  refine ⟨?_, ?_, ?_, ?_⟩
  · intro h
    refine ⟨unpackInner_aliasRes_empty flag fuel id v t m h, ?_⟩
    intro ht hm
    exact ht (unpackInner_aliasRes_empty flag fuel id v t m h hm)
  · intro args h
    refine ⟨unpackInner_aliasApp_empty flag fuel id v t args m h, ?_⟩
    intro ht hm
    exact ht (unpackInner_aliasApp_empty flag fuel id v t args m h hm)
  · intro hv h
    exact unpackInner_annFree flag fuel true (.aliasRes id v) t m (by simpa [annFree] using hv) h
  · intro args hv ha h
    refine unpackInner_annFree flag fuel true (.aliasAppRes id v args) t m ?_ h
    simp [annFree, hv, ha]

/-- Witness for claim C9: the alias `type A = int` (a metadata-free value)
unpacked eagerly is returned unchanged with no metadata. -/
theorem claim_C9_witness :
    unpackInner true 10 true (.aliasRes 4 (.atomic 1)) = .ok (.aliasRes 4 (.atomic 1), []) ∧
    (TypeExpr.aliasRes 4 (.atomic 1) = .aliasRes 4 (.atomic 1) ∧ ([] : List Nat) = []) :=
  ⟨rfl,
    (claim_C9_alias_kept_without_metadata true 10 4 (.atomic 1)
      (.aliasRes 4 (.atomic 1)) []).2.2.1 rfl rfl⟩

mutual
/-- On a `Generic`-marker-free tree the visitor succeeds exactly when the
dispatch rule reaches no forward reference, and otherwise raises the
`unevaluated` error carrying the first reachable reference. -/
theorem visitE_refs (e : TypeExpr) (h : markerFree e = true) :
    (refsOf e = [] → visitE e = .ok ()) ∧
    (∀ r rest, refsOf e = r :: rest → visitE e = .error (.unevaluated r)) := by
  cases e with
  | fwdRef id =>
    constructor
    · intro h1; simp [refsOf] at h1
    · intro r rest hr
      simp only [refsOf] at hr
      cases hr
      rfl
  | genericMarker args => simp [markerFree] at h
  | union args => exact visitArgsV_refs args (by simpa [markerFree] using h)
  | qual q inner => exact visitE_refs inner (by simpa [markerFree] using h)
  | annotated inner meta => exact visitE_refs inner (by simpa [markerFree] using h)
  | aliasAppRes id v args => exact visitArgsV_refs args (by simpa [markerFree] using h)
  | aliasAppUnres id args => exact visitArgsV_refs args (by simpa [markerFree] using h)
  | generic oid args => exact visitArgsV_refs args (by simpa [markerFree] using h)
  | paramSpecCapture id => exact ⟨fun _ => rfl, fun r rest hr => by simp [refsOf] at hr⟩
  | deprecatedAlias id => exact ⟨fun _ => rfl, fun r rest hr => by simp [refsOf] at hr⟩
  | lit args => exact ⟨fun _ => rfl, fun r rest hr => by simp [refsOf] at hr⟩
  | atomic id => exact ⟨fun _ => rfl, fun r rest hr => by simp [refsOf] at hr⟩
  | tvar id => exact ⟨fun _ => rfl, fun r rest hr => by simp [refsOf] at hr⟩
  | bareFinal => exact ⟨fun _ => rfl, fun r rest hr => by simp [refsOf] at hr⟩
  | anyObj => exact ⟨fun _ => rfl, fun r rest hr => by simp [refsOf] at hr⟩
  | aliasRes id v => exact ⟨fun _ => rfl, fun r rest hr => by simp [refsOf] at hr⟩
  | aliasUnres id => exact ⟨fun _ => rfl, fun r rest hr => by simp [refsOf] at hr⟩

/-- `visitE_refs` over an argument list. -/
theorem visitArgsV_refs (l : TypeArgs) (h : markerFreeArgs l = true) :
    (refsArgs l = [] → visitArgsV l = .ok ()) ∧
    (∀ r rest, refsArgs l = r :: rest → visitArgsV l = .error (.unevaluated r)) := by
  cases l with
  | nil => exact ⟨fun _ => rfl, fun r rest hr => by simp [refsArgs] at hr⟩
  | cons hd tl =>
    simp only [markerFreeArgs, Bool.and_eq_true] at h
    have ihh := visitE_refs hd h.1
    have iht := visitArgsV_refs tl h.2
    constructor
    · intro h1
      simp only [refsArgs, List.append_eq_nil] at h1
      simp [visitArgsV, ihh.1 h1.1, iht.1 h1.2]
    · intro r rest hr
      simp only [refsArgs] at hr
      cases hh : refsOf hd with
      | nil =>
        rw [hh, List.nil_append] at hr
        simp [visitArgsV, ihh.1 hh, iht.2 r rest hr]
      | cons r0 rest0 =>
        rw [hh] at hr
        simp only [List.cons_append] at hr
        cases hr
        simp [visitArgsV, ihh.2 _ _ hh]
end

/-- Claim C4: for every type-expression tree free of the reserved
`Generic` marker (which aborts traversal with a different error before any
reference could be reached), the visitor raises `UnevaluatedTypeHint`
carrying exactly the first forward reference its dispatch rule reaches —
forward references are never silently skipped: the traversal returns
normally if and only if no forward reference is reachable. -/
theorem claim_C4_forward_ref_raised (e : TypeExpr) (h : markerFree e = true) :
    (visitE e = .ok () ↔ refsOf e = []) ∧
    (∀ r rest, refsOf e = r :: rest → visitE e = .error (.unevaluated r)) := by
  have hs := visitE_refs e h
  refine ⟨⟨?_, hs.1⟩, hs.2⟩
  intro hok
  cases hr : refsOf e with
  | nil => rfl
  | cons r rest =>
    rw [hs.2 r rest hr] at hok
    cases hok

/-- Witness for claim C4: a forward reference nested under a generic and a
union is reported by the traversal, carrying that reference. -/
theorem claim_C4_witness :
    (visitE (.generic 0 (.cons (.union (.cons (.atomic 1) (.cons (.fwdRef 7) .nil))) .nil))
        = .ok ()
      ↔ refsOf (.generic 0 (.cons (.union (.cons (.atomic 1) (.cons (.fwdRef 7) .nil))) .nil))
        = []) ∧
    visitE (.generic 0 (.cons (.union (.cons (.atomic 1) (.cons (.fwdRef 7) .nil))) .nil))
      = .error (.unevaluated 7) :=
  ⟨(claim_C4_forward_ref_raised
      (.generic 0 (.cons (.union (.cons (.atomic 1) (.cons (.fwdRef 7) .nil))) .nil)) rfl).1,
    (claim_C4_forward_ref_raised
      (.generic 0 (.cons (.union (.cons (.atomic 1) (.cons (.fwdRef 7) .nil))) .nil)) rfl).2
      7 [] rfl⟩

mutual
/-- The transformer with identity leaf handling returns every
marker-free, forward-reference-free tree unchanged: each rebuild site
compares the transformed arguments with the originals and returns the
original node when they are equal. -/
theorem transformE_id (e : TypeExpr) (hm : markerFree e = true) (hr : refsOf e = []) :
    transformE e = .ok e := by
  cases e with
  | fwdRef id => simp [refsOf] at hr
  | genericMarker args => simp [markerFree] at hm
  | union args =>
    have ih := transformArgsT_id args (by simpa [markerFree] using hm) (by simpa [refsOf] using hr)
    simp [transformE, ih]
  | qual q inner =>
    have ih := transformE_id inner (by simpa [markerFree] using hm) (by simpa [refsOf] using hr)
    simp [transformE, ih]
  | annotated inner meta =>
    have ih := transformE_id inner (by simpa [markerFree] using hm) (by simpa [refsOf] using hr)
    simp [transformE, ih]
  | aliasAppRes id v args =>
    have ih := transformArgsT_id args (by simpa [markerFree] using hm) (by simpa [refsOf] using hr)
    simp [transformE, ih]
  | aliasAppUnres id args =>
    have ih := transformArgsT_id args (by simpa [markerFree] using hm) (by simpa [refsOf] using hr)
    simp [transformE, ih]
  | generic oid args =>
    have ih := transformArgsT_id args (by simpa [markerFree] using hm) (by simpa [refsOf] using hr)
    simp [transformE, ih]
  | paramSpecCapture id => rfl
  | deprecatedAlias id => rfl
  | lit args => rfl
  | atomic id => rfl
  | tvar id => rfl
  | bareFinal => rfl
  | anyObj => rfl
  | aliasRes id v => rfl
  | aliasUnres id => rfl

/-- `transformE_id` over an argument list. -/
theorem transformArgsT_id (l : TypeArgs) (hm : markerFreeArgs l = true) (hr : refsArgs l = []) :
    transformArgsT l = .ok l := by
  cases l with
  | nil => rfl
  | cons hd tl =>
    simp only [markerFreeArgs, Bool.and_eq_true] at hm
    simp only [refsArgs, List.append_eq_nil] at hr
    have ih1 := transformE_id hd hm.1 hr.1
    have ih2 := transformArgsT_id tl hm.2 hr.2
    simp [transformArgsT, ih1, ih2]
end

/-- Claim C8: transforming a tree with the identity transformer (no
replacements, alias expansion skipped — the base `TypeHintTransformer`)
returns a value structurally equal to the input whenever the tree contains
no forward reference at a dispatch-reachable position (and no reserved
`Generic` marker, which instead aborts with `ValueError`): every rebuild
is short-circuited because no recursively transformed argument differs
from the original. -/
theorem claim_C8_identity_transform (e : TypeExpr)
    (hm : markerFree e = true) (hr : refsOf e = []) :
    transformE e = .ok e :=
  transformE_id e hm hr

/-- Witness for claim C8: a tree of generics, unions and leaves is
returned unchanged by the identity transformer. -/
theorem claim_C8_witness :
    transformE (.generic 0 (.cons (.union (.cons (.atomic 1) (.cons (.lit (.cons (.value (.intV 3)) .nil)) .nil))) .nil))
      = .ok (.generic 0 (.cons (.union (.cons (.atomic 1) (.cons (.lit (.cons (.value (.intV 3)) .nil)) .nil))) .nil)) :=
  claim_C8_identity_transform
    (.generic 0 (.cons (.union (.cons (.atomic 1) (.cons (.lit (.cons (.value (.intV 3)) .nil)) .nil))) .nil))
    rfl rfl

/-- `dict.fromkeys` yields a subsequence of its input (insertion order is
preserved, elements are only dropped). -/
theorem pyFromKeysGo_sublist {α : Type} (eqv : α → α → Bool) (seen l : List α) :
    (pyFromKeysGo eqv seen l).Sublist l := by
  induction l generalizing seen with
  | nil => simp [pyFromKeysGo]
  | cons p rest ih =>
    simp only [pyFromKeysGo]
    split
    · exact (ih seen).cons p
    · exact (ih (seen ++ [p])).cons₂ p

/-- No two kept elements have equal keys, and no kept element matches a
key already in the dict. -/
theorem pyFromKeysGo_pairwise {α : Type} (eqv : α → α → Bool) (seen l : List α) :
    List.Pairwise (fun a b => eqv a b = false) (pyFromKeysGo eqv seen l) ∧
    (∀ b ∈ pyFromKeysGo eqv seen l, ∀ s ∈ seen, eqv s b = false) := by
  induction l generalizing seen with
  | nil => simp [pyFromKeysGo]
  | cons p rest ih =>
    simp only [pyFromKeysGo]
    split
    · exact ih seen
    · rename_i hany
      have hseen : ∀ s ∈ seen, eqv s p = false := by simpa using hany
      obtain ⟨pw, hmem⟩ := ih (seen ++ [p])
      constructor
      · refine List.Pairwise.cons ?_ pw
        intro b hb
        exact hmem b hb p (by simp)
      · intro b hb s hs
        simp only [List.mem_cons] at hb
        cases hb with
        | inl hbp => exact hbp ▸ hseen s hs
        | inr hbo => exact hmem b hbo s (by simp [hs])

/-- Every input element has an equal-keyed representative among the kept
elements (or was already represented in the dict). -/
theorem pyFromKeysGo_covers {α : Type} (eqv : α → α → Bool) (hrefl : ∀ a, eqv a a = true)
    (seen l : List α) :
    ∀ p ∈ l, (∃ s ∈ seen, eqv s p = true) ∨
      (∃ q ∈ pyFromKeysGo eqv seen l, eqv q p = true) := by
  induction l generalizing seen with
  | nil => simp
  | cons p rest ih =>
    intro x hx
    simp only [List.mem_cons] at hx
    simp only [pyFromKeysGo]
    cases hx with
    | inl hxp =>
      subst hxp
      by_cases hany : seen.any (fun q => eqv q x) = true
      · rw [if_pos hany]
        left
        simpa using hany
      · rw [if_neg hany]
        right
        exact ⟨x, by simp, hrefl x⟩
    | inr hxr =>
      by_cases hany : seen.any (fun q => eqv q p) = true
      · rw [if_pos hany]
        exact ih seen x hxr
      · rw [if_neg hany]
        cases ih (seen ++ [p]) x hxr with
        | inl hl =>
          obtain ⟨s, hs, hsx⟩ := hl
          simp only [List.mem_append, List.mem_singleton] at hs
          cases hs with
          | inl hs0 => exact Or.inl ⟨s, hs0, hsx⟩
          | inr hsp => exact Or.inr ⟨p, by simp, hsp ▸ hsx⟩
        | inr hr =>
          obtain ⟨q, hq, hqx⟩ := hr
          exact Or.inr ⟨q, by simp [hq], hqx⟩

/-- The `(value, type)` key equality is reflexive (Python `==` is reflexive
on the modelled literal values). -/
theorem keyEq_refl (p : LitValue × PyType) : keyEq p p = true := by
  obtain ⟨v, t⟩ := p
  cases v with
  | boolV b => cases b <;> simp [keyEq, pyEq, asIntLike]
  | _ => simp [keyEq, pyEq, asIntLike]

/-- Claim C5: under the `lenient`/`eager` policy the values yielded by
`get_literal_values` are, after full alias expansion, the accumulated
`values_and_type` list deduplicated by the `(value, type(value))` key:
the kept pairs form a subsequence of the accumulated pairs (first
occurrences, in order), no two kept pairs have equal keys, and every
accumulated pair has an equal-keyed kept representative.  In particular an
enum member equal to `1` and the integer `1` are both yielded (their kinds
differ), while a repeated integer `1` collapses to one occurrence. -/
theorem claim_C5_kind_sensitive_dedup (tc eg : Bool) (args : LitArgs) (out : List LitValue)
    (h : expandValues tc eg args = .ok out) :
    (∃ pairs, expandList tc eg args = .ok pairs ∧
      out = (pyFromKeys keyEq pairs).map Prod.fst ∧
      (pyFromKeys keyEq pairs).Sublist pairs ∧
      List.Pairwise (fun a b => keyEq a b = false) (pyFromKeys keyEq pairs) ∧
      (∀ p ∈ pairs, ∃ q ∈ pyFromKeys keyEq pairs, keyEq q p = true)) ∧
    getLiteralValues false .eager
        (.cons (.value (.enumV 0 1)) (.cons (.value (.intV 1)) (.cons (.value (.intV 1)) .nil)))
      = .ok [.enumV 0 1, .intV 1] := by
  constructor
  · cases he : expandList tc eg args with
    | error er => rw [expandValues, he] at h; cases h
    | ok pairs =>
      rw [expandValues, he] at h
      cases h
      exact ⟨pairs, rfl, rfl, pyFromKeysGo_sublist keyEq [] pairs,
        (pyFromKeysGo_pairwise keyEq [] pairs).1,
        fun p hp => by
          cases pyFromKeysGo_covers keyEq keyEq_refl [] pairs p hp with
          | inl hl => simp at hl
          | inr hr => exact hr⟩
  · rfl

/-- Witness for claim C5: the deduplication properties instantiated on
`Literal[Enum0.ONE, 1, 1]` under the `eager` policy. -/
theorem claim_C5_witness :
    ((∃ pairs,
        expandList false true
            (.cons (.value (.enumV 0 1)) (.cons (.value (.intV 1)) (.cons (.value (.intV 1)) .nil)))
          = .ok pairs ∧
        [LitValue.enumV 0 1, LitValue.intV 1] = (pyFromKeys keyEq pairs).map Prod.fst ∧
        (pyFromKeys keyEq pairs).Sublist pairs ∧
        List.Pairwise (fun a b => keyEq a b = false) (pyFromKeys keyEq pairs) ∧
        (∀ p ∈ pairs, ∃ q ∈ pyFromKeys keyEq pairs, keyEq q p = true)) ∧
      getLiteralValues false .eager
          (.cons (.value (.enumV 0 1)) (.cons (.value (.intV 1)) (.cons (.value (.intV 1)) .nil)))
        = .ok [.enumV 0 1, .intV 1]) :=
  claim_C5_kind_sensitive_dedup false true
    (.cons (.value (.enumV 0 1)) (.cons (.value (.intV 1)) (.cons (.value (.intV 1)) .nil)))
    [.enumV 0 1, .intV 1] rfl

/-- `keepNorm` of a `None`-equivalent member is `None`. -/
theorem keepNorm_noneEquiv (v : LitValue) (h : isNoneEquiv (.value v) = true) :
    keepNorm (.value v) = .noneV := by
  cases v <;> first | rfl | simp [isNoneEquiv] at h

/-- `keepNorm` leaves a non-`None`-equivalent value unchanged. -/
theorem keepNorm_other (v : LitValue) (h : isNoneEquiv (.value v) = false) :
    keepNorm (.value v) = v := by
  cases v <;> first | rfl | simp [isNoneEquiv] at h

/-- A non-`None`-equivalent value is not `None`. -/
theorem noneV_ne_other (v : LitValue) (h : isNoneEquiv (.value v) = false) :
    (v == LitValue.noneV) = false := by
  cases v <;> simp_all [isNoneEquiv]

/-- The `keep` branch of `get_literal_values`, characterized against the
input members mapped through `keepNorm`: non-`None` members are yielded
as-is in order (equal filtrations), at most one `None` is yielded (none
when `_has_none` starts true), the prefix before the first `None` is
preserved, and the output is a subsequence of the normalized input. -/
theorem keepGo_spec (tc hasNone : Bool) (args : LitArgs) (out : List LitValue)
    (h : keepGo tc hasNone args = .ok out) :
    out.filter (fun v => !(v == LitValue.noneV))
        = ((litArgsList args).map keepNorm).filter (fun v => !(v == LitValue.noneV)) ∧
    out.count .noneV = (if hasNone then 0 else
        if ((litArgsList args).map keepNorm).contains .noneV then 1 else 0) ∧
    (hasNone = false → out.takeWhile (fun v => !(v == LitValue.noneV))
        = ((litArgsList args).map keepNorm).takeWhile (fun v => !(v == LitValue.noneV))) ∧
    out.Sublist ((litArgsList args).map keepNorm) := by
  cases args with
  | nil =>
    simp only [keepGo] at h
    cases h
    cases hasNone <;> simp [litArgsList]
  | cons a rest =>
    cases a with
    | value v =>
      simp only [keepGo] at h
      by_cases htc : (tc && !litOk v) = true
      · rw [if_pos htc] at h; cases h
      · rw [if_neg htc] at h
        by_cases hne : isNoneEquiv (.value v) = true
        · rw [if_pos hne] at h
          have hkn := keepNorm_noneEquiv v hne
          cases hasNone with
          | true =>
            obtain ⟨ih1, ih2, _, ih4⟩ := keepGo_spec tc true rest out h
            refine ⟨?_, ?_, ?_, ?_⟩
            · simp [litArgsList, hkn, ih1]
            · simpa using ih2
            · intro hfn; cases hfn
            · simpa [litArgsList, hkn] using ih4.cons _
          | false =>
            cases hr : keepGo tc true rest with
            | error er => simp [hr] at h
            | ok out1 =>
              simp only [hr] at h
              cases h
              obtain ⟨ih1, ih2, _, ih4⟩ := keepGo_spec tc true rest out1 hr
              refine ⟨?_, ?_, ?_, ?_⟩
              · simp [litArgsList, hkn, List.filter_cons, ih1]
              · simp [litArgsList, hkn, List.count_cons]
                simpa using ih2
              · intro _
                simp [litArgsList, hkn, List.takeWhile_cons]
              · simpa [litArgsList, hkn] using ih4.cons₂ LitValue.noneV
        · rw [if_neg hne] at h
          replace hne : isNoneEquiv (.value v) = false := by simpa using hne
          have hkn := keepNorm_other v hne
          have hvn := noneV_ne_other v hne
          cases hr : keepGo tc hasNone rest with
          | error er => simp [hr] at h
          | ok out1 =>
            simp only [hr] at h
            cases h
            obtain ⟨ih1, ih2, ih3, ih4⟩ := keepGo_spec tc hasNone rest out1 hr
            refine ⟨?_, ?_, ?_, ?_⟩
            · simp [litArgsList, hkn, List.filter_cons, hvn, ih1]
            · have hvne : v ≠ LitValue.noneV := by simpa using hvn
              simp [litArgsList, hkn, List.count_cons, hvn, List.contains_cons, Ne.symm hvne]
              simpa using ih2
            · intro hfn
              simp [litArgsList, hkn, List.takeWhile_cons, hvn, ih3 hfn]
            · simpa [litArgsList, hkn] using ih4.cons₂ v
    | aliasRes id val =>
      simp only [keepGo] at h
      by_cases htc : tc = true
      · rw [if_pos htc] at h; cases h
      · rw [if_neg htc] at h
        cases hr : keepGo tc hasNone rest with
        | error er => simp [hr] at h
        | ok out1 =>
          simp only [hr] at h
          cases h
          obtain ⟨ih1, ih2, ih3, ih4⟩ := keepGo_spec tc hasNone rest out1 hr
          refine ⟨?_, ?_, ?_, ?_⟩
          · simp [litArgsList, keepNorm, List.filter_cons, ih1]
          · simp [litArgsList, keepNorm, List.count_cons, List.contains_cons]
            simpa using ih2
          · intro hfn
            simp [litArgsList, keepNorm, List.takeWhile_cons, ih3 hfn]
          · simpa [litArgsList, keepNorm] using ih4.cons₂ (LitValue.aliasObj id)
    | aliasUnres id =>
      simp only [keepGo] at h
      by_cases htc : tc = true
      · rw [if_pos htc] at h; cases h
      · rw [if_neg htc] at h
        cases hr : keepGo tc hasNone rest with
        | error er => simp [hr] at h
        | ok out1 =>
          simp only [hr] at h
          cases h
          obtain ⟨ih1, ih2, ih3, ih4⟩ := keepGo_spec tc hasNone rest out1 hr
          refine ⟨?_, ?_, ?_, ?_⟩
          · simp [litArgsList, keepNorm, List.filter_cons, ih1]
          · simp [litArgsList, keepNorm, List.count_cons, List.contains_cons]
            simpa using ih2
          · intro hfn
            simp [litArgsList, keepNorm, List.takeWhile_cons, ih3 hfn]
          · simpa [litArgsList, keepNorm] using ih4.cons₂ (LitValue.aliasObj id)

/-- Claim C6: under the `keep` policy every top-level member is yielded
as-is with no alias expansion, except that `None`-equivalent members
(the value `None` and the `NoneType` sentinel) collapse to a single `None`
at the position of the first occurrence: the non-`None` members of input
and output agree (equal filtrations, original order), exactly one `None`
is yielded when the input holds any `None`-equivalent member, the prefix
before the first `None` is preserved, and the output is a subsequence of
the normalized input.  In particular `[NoneType, None]` yields exactly one
`None`. -/
theorem claim_C6_keep_as_is (tc : Bool) (args : LitArgs) (out : List LitValue)
    (h : getLiteralValues tc .keep args = .ok out) :
    (out.filter (fun v => !(v == LitValue.noneV))
        = ((litArgsList args).map keepNorm).filter (fun v => !(v == LitValue.noneV)) ∧
      out.count .noneV
        = (if ((litArgsList args).map keepNorm).contains .noneV then 1 else 0) ∧
      out.takeWhile (fun v => !(v == LitValue.noneV))
        = ((litArgsList args).map keepNorm).takeWhile (fun v => !(v == LitValue.noneV)) ∧
      out.Sublist ((litArgsList args).map keepNorm)) ∧
    getLiteralValues false .keep (.cons (.value .noneTypeV) (.cons (.value .noneV) .nil))
      = .ok [.noneV] := by
  constructor
  · have hs := keepGo_spec tc false args out (by simpa [getLiteralValues] using h)
    exact ⟨hs.1, by simpa using hs.2.1, hs.2.2.1 rfl, hs.2.2.2⟩
  · rfl

/-- Witness for claim C6: the `keep`-mode characterization instantiated on
`Literal[NoneType, None]`, whose extraction yields exactly one `None`. -/
theorem claim_C6_witness :
    ((List.filter (fun v => !(v == LitValue.noneV)) [LitValue.noneV]
        = List.filter (fun v => !(v == LitValue.noneV))
            ((litArgsList (.cons (.value .noneTypeV) (.cons (.value .noneV) .nil))).map keepNorm) ∧
      List.count LitValue.noneV [LitValue.noneV]
        = (if ((litArgsList (.cons (.value .noneTypeV)
              (.cons (.value .noneV) .nil))).map keepNorm).contains LitValue.noneV
            then 1 else 0) ∧
      List.takeWhile (fun v => !(v == LitValue.noneV)) [LitValue.noneV]
        = ((litArgsList (.cons (.value .noneTypeV)
            (.cons (.value .noneV) .nil))).map keepNorm).takeWhile
              (fun v => !(v == LitValue.noneV)) ∧
      List.Sublist [LitValue.noneV]
        ((litArgsList (.cons (.value .noneTypeV) (.cons (.value .noneV) .nil))).map keepNorm)) ∧
    getLiteralValues false .keep (.cons (.value .noneTypeV) (.cons (.value .noneV) .nil))
      = .ok [.noneV]) :=
  claim_C6_keep_as_is false (.cons (.value .noneTypeV) (.cons (.value .noneV) .nil))
    [.noneV] rfl
